import Mathlib

/-!
# NAFLD Lifestyle Risk Predictor — verification of the schema-driven inference pipeline

Shallow embedding of `app.py` (Streamlit NAFLD risk app).  Feature values are
modelled as tagged strings/rationals; the fixed UI dictionaries
(`CATEGORICAL_CHOICES`, `RANGE_PRESETS`, `GROUPS`) are transcribed verbatim;
`load_features` sanitization, the grouped rendering order, the ordered-vector
extraction (`values = [values_dict[f] for f in FEATURES]`) and the
probability-to-band classification (`pct = round(proba*100, 1)`,
`band = "High risk" if pct >= 50 else ...`) are translated from the source.
The validation and error taxonomy of the InputAssembler / InferenceEngine
(which the source realizes through widget dispatch and a `try/except` block)
is modelled from the spec where noted.
-/

/-- A raw feature value: either a categorical string or a numeric value.
Numeric values are modelled as rationals. -/
inductive Value where
  | str (s : String)
  | num (q : ℚ)
deriving DecidableEq

/-- Table `CATEGORICAL_CHOICES` from the source: feature name → allowed choices. -/
def CATEGORICAL_CHOICES : List (String × List String) :=
  [ ("Gender", ["Male", "Female"]),
    ("Race/Ethnicity", ["Non-Hispanic White", "Non-Hispanic Black", "Hispanic", "Other"]),
    ("Smoking status", ["Never", "Former", "Current"]),
    ("Sleep Disorder Status", ["No", "Yes"]) ]

/-- One entry of `RANGE_PRESETS`: min, max, default value and step. -/
structure RangePreset where
  min_value : ℚ
  max_value : ℚ
  value : ℚ
  step : ℚ
deriving DecidableEq

/-- Table `RANGE_PRESETS` from the source: feature name → slider/number-input preset. -/
def RANGE_PRESETS : List (String × RangePreset) :=
  [ ("Age in years", ⟨18, 85, 40, 1⟩),
    ("Family income ratio", ⟨0, 5, 2, 1/10⟩),
    ("Sleep duration (hours/day)", ⟨3, 12, 7, 1/2⟩),
    ("Work schedule duration (hours)", ⟨0, 16, 8, 1/2⟩),
    ("Physical activity (minutes/day)", ⟨0, 300, 30, 5⟩),
    ("BMI", ⟨15, 50, 28, 1/10⟩),
    ("Number of days drank in the past year", ⟨0, 365, 0, 1⟩),
    ("Alcohol consumption (days/week)", ⟨0, 7, 0, 1/2⟩),
    ("Alcohol drinks per day", ⟨0, 10, 0, 1/2⟩),
    ("Max number of drinks on any single day", ⟨0, 20, 0, 1⟩),
    ("Alcohol intake frequency (drinks/day)", ⟨0, 10, 0, 1/10⟩),
    ("Total calorie intake (kcal)", ⟨800, 5000, 2200, 50⟩),
    ("Total fat (g)", ⟨10, 200, 70, 1⟩),
    ("Saturated fat (g)", ⟨0, 80, 25, 1⟩),
    ("Added sugar (g)", ⟨0, 150, 30, 1⟩),
    ("Dietary fiber (g)", ⟨0, 80, 20, 1⟩),
    ("Fruit/veg servings per day", ⟨0, 10, 3, 1/2⟩),
    ("Sugary drinks per week", ⟨0, 50, 0, 1⟩) ]

/-- Table `GROUPS` from the source: section name → feature names rendered in it. -/
def GROUPS : List (String × List String) :=
  [ ("Demographics",
      ["Gender", "Age in years", "Race/Ethnicity", "Family income ratio", "Smoking status"]),
    ("Sleep & Activity",
      ["Sleep Disorder Status", "Sleep duration (hours/day)",
       "Work schedule duration (hours)", "Physical activity (minutes/day)"]),
    ("Anthropometrics", ["BMI"]),
    ("Alcohol",
      ["Number of days drank in the past year", "Alcohol consumption (days/week)",
       "Alcohol drinks per day", "Max number of drinks on any single day",
       "Alcohol intake frequency (drinks/day)"]),
    ("Diet",
      ["Total calorie intake (kcal)", "Total fat (g)", "Saturated fat (g)",
       "Added sugar (g)", "Dietary fiber (g)", "Fruit/veg servings per day",
       "Sugary drinks per week"]) ]

/-- The FieldSpec tagged variant of the spec's catalog: categorical with a
choice set, bounded numeric with a range preset, or free numeric fallback. -/
inductive FieldSpec where
  | categorical (choices : List String)
  | bounded (min_value max_value step default : ℚ)
  | free
deriving DecidableEq

/-- The per-feature dispatch of `widget_for` in the source: first the
categorical table, then the range presets, then the free-numeric fallback. -/
def specFor (name : String) : FieldSpec :=
  match CATEGORICAL_CHOICES.lookup name with
  | some cs => .categorical cs
  | none =>
    match RANGE_PRESETS.lookup name with
    | some p => .bounded p.min_value p.max_value p.step p.value
    | none => .free

-- -------------------- SchemaRegistry (load_features) --------------------

/-- Python `str.strip()`: remove leading and trailing whitespace. -/
def pyStrip (s : String) : String :=
  ⟨((s.data.dropWhile Char.isWhitespace).reverse.dropWhile Char.isWhitespace).reverse⟩

/-- The sanitize loop of `load_features`: strip each entry, drop empties and
names already seen, keep first-seen order.  `seen` is the accumulator set. -/
def sanitizeAux (seen : List String) : List String → List String
  | [] => []
  | x :: rest =>
    if pyStrip x ≠ "" ∧ pyStrip x ∉ seen then pyStrip x :: sanitizeAux (pyStrip x :: seen) rest
    else sanitizeAux seen rest

/-- Function `load_features` from the source (the file read and JSON decode are the
external schema source; its decoded list of raw names is the argument). -/
def load_features (feats : List String) : List String :=
  sanitizeAux [] feats

/-- Specification-side keep-first deduplication, used to state that
`load_features` retains names in first-seen order. -/
def dedupFirst : List String → List String
  | [] => []
  | x :: rest => x :: dedupFirst (rest.filter (fun a => a ≠ x))
termination_by l => l.length
decreasing_by
  simp only [gt_iff_lt, List.length_cons]
  exact Nat.lt_succ_of_le (List.length_filter_le _ _)

-- -------------------- Rendering order (values_dict coverage) --------------------

/-- The grouped rendering pass: for each group in order, the schema features
that belong to it (`feats = [f for f in FEATURES if f in group_feats]`). -/
def groupedRender (features : List String) : List String :=
  (GROUPS.map (fun g => features.filter (fun f => f ∈ g.2))).flatten

/-- The second rendering pass: schema features in no group
(`remaining = [f for f in FEATURES if all(f not in g for g in GROUPS.values())]`). -/
def remainingRender (features : List String) : List String :=
  features.filter (fun f => ∀ g ∈ GROUPS, f ∉ g.2)

/-- The order in which `values_dict[fname] = widget_for(fname)` assignments
happen: all grouped features, then the remaining ones. -/
def renderOrder (features : List String) : List String :=
  groupedRender features ++ remainingRender features

-- -------------------- RiskClassifier --------------------

/-- Round-half-to-even to an integer (the rounding mode of Python `round`). -/
def roundHalfEven (q : ℚ) : ℤ :=
  if q - ⌊q⌋ < 1/2 then ⌊q⌋
  else if 1/2 < q - ⌊q⌋ then ⌊q⌋ + 1
  else if ⌊q⌋ % 2 = 0 then ⌊q⌋ else ⌊q⌋ + 1

/-- Python `round(x, 1)` from the source: round to one decimal, half to even. -/
def round1 (x : ℚ) : ℚ := (roundHalfEven (10 * x) : ℚ) / 10

/-- The two risk bands of the source's `band` expression. -/
inductive Band where
  | high
  | lowModerate
deriving DecidableEq

/-- The source's `pct = round(proba * 100, 1)`. -/
def riskPercentage (proba : ℚ) : ℚ := round1 (proba * 100)

/-- The source's `band = "High risk" if pct >= 50 else "Low/moderate risk"`. -/
def riskBand (proba : ℚ) : Band :=
  if riskPercentage proba ≥ 50 then .high else .lowModerate

/-- RiskClassifier `classify`: probability → (risk percentage, risk band). -/
def classify (proba : ℚ) : ℚ × Band := (riskPercentage proba, riskBand proba)

-- -------------------- InputAssembler (spec-modelled validation) --------------------

/-- The per-request error taxonomy of the spec (request-scope errors). -/
inductive AssembleError where
  | missingField (name : String)
  | invalidCategory (name : String)
  | outOfRange (name : String)
  | typeMismatch (name : String)
deriving DecidableEq

instance {ε α : Type} [DecidableEq ε] [DecidableEq α] : DecidableEq (Except ε α) := fun a b =>
  match a, b with
  | .error x, .error y => decidable_of_iff (x = y) (by simp)
  | .error _, .ok _ => isFalse (fun h => Except.noConfusion h)
  | .ok _, .error _ => isFalse (fun h => Except.noConfusion h)
  | .ok x, .ok y => decidable_of_iff (x = y) (by simp)

/-- Modelled from the spec: the InputAssembler's per-field domain validation.
The source has no explicit validator; it enforces these domains through
`widget_for` (a selectbox only yields members of the choice set, a
slider/number input only yields values within the preset bounds, the fallback
number input accepts any numeric).  Categorical values must be members of the
allowed set, bounded-numeric values must lie in `[min_value, max_value]`
(inclusive, rejected not clamped), free-numeric accepts any numeric value. -/
def checkValue (name : String) (v : Value) : Except AssembleError Unit :=
  match specFor name, v with
  | .categorical cs, .str s =>
    if s ∈ cs then .ok () else .error (.invalidCategory name)
  | .categorical _, .num _ => .error (.invalidCategory name)
  | .bounded mn mx _ _, .num q =>
    if mn ≤ q ∧ q ≤ mx then .ok () else .error (.outOfRange name)
  | .bounded _ _ _ _, .str _ => .error (.typeMismatch name)
  | .free, .num _ => .ok ()
  | .free, .str _ => .error (.typeMismatch name)

/-- Modelled from the spec: `assemble(namedValues, schema)` — for each name in
schema order, look up the supplied value (`MissingFieldError` if absent),
validate it against its FieldSpec, and emit the ordered vector.  The lookup
and ordering are the source's `values = [values_dict[f] for f in FEATURES]`;
the explicit error results are the spec's InputAssembler contract. -/
def assemble (m : String → Option Value) : List String → Except AssembleError (List Value)
  | [] => .ok []
  | name :: rest =>
    match m name with
    | none => .error (.missingField name)
    | some v =>
      match checkValue name v with
      | .error e => .error e
      | .ok _ =>
        match assemble m rest with
        | .error e => .error e
        | .ok vec => .ok (v :: vec)

/-- Boolean form of "the mapping supplies a domain-valid value for `name`". -/
def okAt (m : String → Option Value) (name : String) : Bool :=
  match m name with
  | none => false
  | some v =>
    match checkValue name v with
    | .ok _ => true
    | .error _ => false

-- -------------------- InferenceEngine (spec-modelled) --------------------

/-- The single failure mode of the predict block: the spec's
`ModelInvocationError`.  In the source any exception raised inside the `try`
block is caught by its one `except` clause and reported as an inference
error. -/
inductive ModelError where
  | modelInvocation
deriving DecidableEq

/-- The model artifact's `predict_proba` output for one request: either it
raises (`.error` with the exception text) or returns a row of class
probabilities. -/
def ArtifactOutput : Type := Except String (List ℚ)

/-- The predict block of the source (lines 163-174):
`proba = float(pipeline.predict_proba(X)[:, 1][0])` inside one `try/except`.
If the artifact raises, the exception is caught and the request fails; the
column selection `[:, 1]` raises (and is caught) exactly when the output row
has fewer than two entries; otherwise the entry at index 1 is returned with
no further shape or range check. -/
def score (out : ArtifactOutput) : Except ModelError ℚ :=
  match out with
  | .error _ => .error .modelInvocation
  | .ok ps =>
    if 2 ≤ ps.length then .ok (ps.getD 1 0)
    else .error .modelInvocation

-- -------------------- RequestHandler --------------------

/-- Display message for a rejected request. -/
def errorMessage : AssembleError → String
  | .missingField name => "Missing field: " ++ name
  | .invalidCategory name => "Invalid category: " ++ name
  | .outOfRange name => "Out of range: " ++ name
  | .typeMismatch name => "Type mismatch: " ++ name

/-- One prediction call: validate and assemble, invoke the model, classify.
Returns the display payload `(message, probability or none)` of the spec's
presentation-layer interface; a `none` probability signals a rejected
request, and the long-lived process continues. -/
def handle (model : List Value → ArtifactOutput) (m : String → Option Value)
    (schema : List String) : String × Option (ℚ × ℚ × Band) :=
  match assemble m schema with
  | .error e => (errorMessage e, none)
  | .ok vec =>
    match score (model vec) with
    | .error _ => ("Inference error", none)
    | .ok p => ("ok", some (p, classify p))

-- -------------------- Helper lemmas --------------------

lemma okAt_iff {m : String → Option Value} {n : String} :
    okAt m n = true ↔ ∃ v, m n = some v ∧ checkValue n v = .ok () := by
  unfold okAt
  cases hm : m n with
  | none => simp
  | some v =>
    cases hc : checkValue n v with
    | error e => simp [hc]
    | ok u => cases u; simp [hc]

lemma assemble_nil {m : String → Option Value} : assemble m [] = .ok [] := rfl

lemma assemble_cons_of_ok {m : String → Option Value} {name : String} {v : Value}
    {rest : List String} (hv : m name = some v) (hc : checkValue name v = .ok ()) :
    assemble m (name :: rest) =
      match assemble m rest with
      | .error e => .error e
      | .ok vec => .ok (v :: vec) := by
  simp only [assemble, hv, hc]

lemma assemble_ok_length {m : String → Option Value} :
    ∀ {schema : List String} {vec : List Value},
      assemble m schema = .ok vec → vec.length = schema.length := by
  intro schema
  induction schema with
  | nil =>
    intro vec h
    simp only [assemble, Except.ok.injEq] at h
    simp [← h]
  | cons name rest ih =>
    intro vec h
    simp only [assemble] at h
    split at h
    · simp at h
    · split at h
      · simp at h
      · split at h
        · simp at h
        · next ha =>
          simp only [Except.ok.injEq] at h
          subst h
          simp [ih ha]

lemma assemble_ok_get {m : String → Option Value} :
    ∀ {schema : List String} {vec : List Value},
      assemble m schema = .ok vec →
      ∀ i (h1 : i < schema.length) (h2 : i < vec.length),
        m (schema.get ⟨i, h1⟩) = some (vec.get ⟨i, h2⟩) := by
  intro schema
  induction schema with
  | nil =>
    intro vec _ i h1
    exact absurd h1 (by simp)
  | cons name rest ih =>
    intro vec h i h1 h2
    simp only [assemble] at h
    split at h
    · simp at h
    · next v hm =>
      split at h
      · simp at h
      · split at h
        · simp at h
        · next ha =>
          simp only [Except.ok.injEq] at h
          subst h
          cases i with
          | zero => simpa using hm
          | succ j =>
            simp only [List.get_cons_succ]
            exact ih ha j (by simpa using h1) (by simpa using h2)

lemma assemble_of_okAt {m : String → Option Value} :
    ∀ {schema : List String}, (∀ n ∈ schema, okAt m n = true) →
      ∃ vec, assemble m schema = .ok vec := by
  intro schema
  induction schema with
  | nil => intro _; exact ⟨[], rfl⟩
  | cons name rest ih =>
    intro h
    obtain ⟨v, hv, hc⟩ := okAt_iff.mp (h name (by simp))
    obtain ⟨vec, hvec⟩ := ih (fun n hn => h n (by simp [hn]))
    exact ⟨v :: vec, by rw [assemble_cons_of_ok hv hc, hvec]⟩

lemma assemble_append_error {m : String → Option Value} {e : AssembleError} :
    ∀ {pre rest : List String}, (∀ n ∈ pre, okAt m n = true) →
      assemble m rest = .error e → assemble m (pre ++ rest) = .error e := by
  intro pre
  induction pre with
  | nil => intro rest _ h; simpa using h
  | cons name pre2 ih =>
    intro rest hok h
    obtain ⟨v, hv, hc⟩ := okAt_iff.mp (hok name (by simp))
    rw [List.cons_append, assemble_cons_of_ok hv hc,
      ih (fun n hn => hok n (by simp [hn])) h]

-- -------------------- Concrete example inputs (for witnesses) --------------------

/-- The spec's end-to-end example schema. -/
def exSchema : List String := ["Gender", "Age in years"]

/-- The spec's end-to-end valid input `{"Gender": "Male", "Age in years": 40}`. -/
def exInput : String → Option Value := fun n =>
  if n = "Gender" then some (.str "Male")
  else if n = "Age in years" then some (.num 40) else none

/-- The spec's end-to-end failing input `{"Gender": "Other", "Age in years": 40}`. -/
def exBadInput : String → Option Value := fun n =>
  if n = "Gender" then some (.str "Other")
  else if n = "Age in years" then some (.num 40) else none

/-- An input that omits `"Age in years"`. -/
def exMissingInput : String → Option Value := fun n =>
  if n = "Gender" then some (.str "Male") else none

/-- An input whose `"Age in years"` exceeds the preset maximum of 85. -/
def exOutOfRangeInput : String → Option Value := fun n =>
  if n = "Age in years" then some (.num 86) else none

/-- A stub model artifact returning the two-class probability pair (0, 1). -/
def exModel : List Value → ArtifactOutput := fun _ => .ok [0, 1]

-- -------------------- Claim theorems: assembler --------------------

/-- C2: for every named-value mapping that supplies one domain-valid value per
schema feature, `assemble` produces an ordered vector whose length equals the
schema length and whose entry at position `i` is the value supplied for the
`i`-th schema name. -/
theorem assemble_complete (m : String → Option Value) (schema : List String)
    (h : ∀ name ∈ schema, okAt m name = true) :
    ∃ vec, assemble m schema = .ok vec ∧ vec.length = schema.length ∧
      ∀ i (h1 : i < schema.length) (h2 : i < vec.length),
        m (schema.get ⟨i, h1⟩) = some (vec.get ⟨i, h2⟩) := by
  obtain ⟨vec, hvec⟩ := assemble_of_okAt h
  exact ⟨vec, hvec, assemble_ok_length hvec, assemble_ok_get hvec⟩

/-- Witness for C2 at the spec's end-to-end example. -/
theorem assemble_complete_witness :
    (∀ name ∈ exSchema, okAt exInput name = true) ∧
    ∃ vec, assemble exInput exSchema = .ok vec ∧ vec.length = exSchema.length :=
  ⟨by decide, (assemble_complete exInput exSchema (by decide)).imp
    fun _ hv => ⟨hv.1, hv.2.1⟩⟩

/-- C9: round-trip — if assembling succeeds, reading entry `i` of the vector
back under the `i`-th schema name reproduces the original named value. -/
theorem assemble_roundTrip (m : String → Option Value) (schema : List String)
    (vec : List Value) (h : assemble m schema = .ok vec) :
    ∀ i (h1 : i < schema.length) (h2 : i < vec.length),
      m (schema.get ⟨i, h1⟩) = some (vec.get ⟨i, h2⟩) :=
  assemble_ok_get h

/-- Witness for C9 at the spec's end-to-end example, position 0. -/
theorem assemble_roundTrip_witness :
    assemble exInput exSchema = .ok [Value.str "Male", Value.num 40] ∧
    exInput "Gender" = some (Value.str "Male") :=
  ⟨by decide,
   assemble_roundTrip exInput exSchema [Value.str "Male", Value.num 40]
     (by decide) 0 (by decide) (by decide)⟩

/-- C5: if every schema name before `name` is supplied and valid and `name` is
absent from the mapping, `assemble` fails with `MissingFieldError name`, and
the request handler reports a rejected request (message, no probability) for
any model — the process continues. -/
theorem assemble_missingField (m : String → Option Value) (pre post : List String)
    (name : String) (hpre : ∀ n ∈ pre, okAt m n = true) (hm : m name = none) :
    assemble m (pre ++ name :: post) = .error (.missingField name) ∧
    ∀ model, handle model m (pre ++ name :: post) =
      (errorMessage (.missingField name), none) := by
  have h1 : assemble m (name :: post) = .error (.missingField name) := by
    simp only [assemble, hm]
  have h2 := assemble_append_error hpre h1
  exact ⟨h2, fun model => by simp [handle, h2]⟩

/-- Witness for C5: `"Gender"` supplied, `"Age in years"` absent. -/
theorem assemble_missingField_witness :
    (∀ n ∈ ["Gender"], okAt exMissingInput n = true) ∧
    assemble exMissingInput exSchema = .error (.missingField "Age in years") ∧
    handle exModel exMissingInput exSchema =
      (errorMessage (.missingField "Age in years"), none) := by
  have h := assemble_missingField exMissingInput ["Gender"] [] "Age in years"
    (by decide) (by decide)
  exact ⟨by decide, h.1, h.2 exModel⟩

/-- C3: a categorical feature supplied with a string outside its declared
choice set makes `assemble` fail with `InvalidCategoryError` (no vector is
produced), and the request handler rejects the request without ever invoking
the model (the payload is the same for every model). -/
theorem assemble_invalidCategory (m : String → Option Value) (pre post : List String)
    (name : String) (cs : List String) (s : String)
    (hpre : ∀ n ∈ pre, okAt m n = true)
    (hspec : specFor name = .categorical cs)
    (hm : m name = some (.str s)) (hs : s ∉ cs) :
    assemble m (pre ++ name :: post) = .error (.invalidCategory name) ∧
    ∀ model, handle model m (pre ++ name :: post) =
      (errorMessage (.invalidCategory name), none) := by
  have hcv : checkValue name (.str s) = .error (.invalidCategory name) := by
    unfold checkValue
    rw [hspec]
    simp [hs]
  have h1 : assemble m (name :: post) = .error (.invalidCategory name) := by
    simp only [assemble, hm, hcv]
  have h2 := assemble_append_error hpre h1
  exact ⟨h2, fun model => by simp [handle, h2]⟩

/-- Witness for C3 at the spec's end-to-end failure example
`{"Gender": "Other", "Age in years": 40}`. -/
theorem assemble_invalidCategory_witness :
    specFor "Gender" = .categorical ["Male", "Female"] ∧
    "Other" ∉ ["Male", "Female"] ∧
    assemble exBadInput exSchema = .error (.invalidCategory "Gender") ∧
    handle exModel exBadInput exSchema =
      (errorMessage (.invalidCategory "Gender"), none) := by
  have h := assemble_invalidCategory exBadInput [] ["Age in years"] "Gender"
    ["Male", "Female"] "Other" (by decide) rfl (by decide) (by decide)
  exact ⟨rfl, by decide, h.1, h.2 exModel⟩

/-- C4: for a bounded-numeric feature with bounds `[mn, mx]`, the boundary
values are accepted, any in-range value is accepted, and a value strictly
below `mn` or strictly above `mx` makes `assemble` fail with
`OutOfRangeError` — rejected, not clamped. -/
theorem bounded_boundaries (m : String → Option Value) (pre post : List String)
    (name : String) (mn mx st df q : ℚ)
    (hspec : specFor name = .bounded mn mx st df) (hle : mn ≤ mx)
    (hpre : ∀ n ∈ pre, okAt m n = true)
    (hm : m name = some (.num q)) :
    (checkValue name (.num mn) = .ok () ∧ checkValue name (.num mx) = .ok ()) ∧
    (mn ≤ q ∧ q ≤ mx → checkValue name (.num q) = .ok ()) ∧
    ((q < mn ∨ mx < q) →
      assemble m (pre ++ name :: post) = .error (.outOfRange name)) := by
  have hcv : ∀ r : ℚ, checkValue name (.num r) =
      if mn ≤ r ∧ r ≤ mx then .ok () else .error (.outOfRange name) := by
    intro r
    unfold checkValue
    rw [hspec]
  refine ⟨⟨?_, ?_⟩, ?_, ?_⟩
  · rw [hcv]; simp [le_refl, hle]
  · rw [hcv]; simp [le_refl, hle]
  · intro hq; rw [hcv]; simp [hq.1, hq.2]
  · intro hq
    have hne : ¬(mn ≤ q ∧ q ≤ mx) := by
      rcases hq with hq | hq
      · exact fun hc => absurd hc.1 (not_le.mpr hq)
      · exact fun hc => absurd hc.2 (not_le.mpr hq)
    have h1 : assemble m (name :: post) = .error (.outOfRange name) := by
      simp only [assemble, hm, hcv, if_neg hne]
    exact assemble_append_error hpre h1

/-- Witness for C4: `"Age in years"` with bounds `[18, 85]` — 18 and 85
accepted, 86 rejected with `OutOfRangeError`. -/
theorem bounded_boundaries_witness :
    (checkValue "Age in years" (.num 18) = .ok () ∧
     checkValue "Age in years" (.num 85) = .ok ()) ∧
    assemble exOutOfRangeInput ["Age in years"] = .error (.outOfRange "Age in years") := by
  have h := bounded_boundaries exOutOfRangeInput [] [] "Age in years"
    18 85 1 40 86 rfl (by norm_num) (by decide) (by decide)
  exact ⟨h.1, h.2.2 (Or.inr (by norm_num))⟩

-- -------------------- Claim theorems: classifier and engine --------------------

/-- C1: for every probability in `[0, 1]`, `classify` returns
`risk_percentage = round(p * 100, 1)` (round half to even) and the band is
High exactly when the percentage is at least 50.0 (inclusive threshold); in
particular `classify 0.5` is High and `classify 0.499` is Low/Moderate. -/
theorem classify_threshold (p : ℚ) (h : 0 ≤ p ∧ p ≤ 1) :
    (classify p).1 = round1 (p * 100) ∧
    ((classify p).2 = Band.high ↔ 50 ≤ (classify p).1) ∧
    classify (1/2) = (50, Band.high) ∧
    classify (499/1000) = (499/10, Band.lowModerate) := by
  refine ⟨rfl, ?_, ?_, ?_⟩
  · by_cases hc : 50 ≤ riskPercentage p
    · simp [classify, riskBand, hc]
    · simp [classify, riskBand, hc]
  · norm_num [classify, riskBand, riskPercentage, round1, roundHalfEven]
  · norm_num [classify, riskBand, riskPercentage, round1, roundHalfEven]

/-- Witness for C1 at `p = 1/2`. -/
theorem classify_threshold_witness :
    ((0:ℚ) ≤ 1/2 ∧ (1/2:ℚ) ≤ 1) ∧
    ((classify (1/2)).2 = Band.high ↔ 50 ≤ (classify (1/2)).1) :=
  ⟨by norm_num, (classify_threshold (1/2) (by norm_num)).2.1⟩

lemma score_ok_eval {ps : List ℚ} (h2 : 2 ≤ ps.length) :
    score (.ok ps) = .ok (ps.getD 1 0) := by
  simp only [score]
  rw [if_pos h2]

lemma score_bad_shape {ps : List ℚ} (h2 : ¬2 ≤ ps.length) :
    score (.ok ps) = .error .modelInvocation := by
  simp only [score]
  rw [if_neg h2]

/-- C6 counterexample: the predict block accepts a malformed artifact.  An
out-of-range probability (2 at index 1) and a three-class output row are both
scored without error — index 1 is taken with no shape or range check — where
the claim demands a `ModelInvocationError`. -/
theorem score_accepts_malformed :
    score (.ok [0, 2]) = .ok 2 ∧ ¬((2:ℚ) ≤ 1) ∧
    score (.ok [0, 1, 0]) = .ok 1 ∧ [(0:ℚ), 1, 0].length ≠ 2 :=
  ⟨rfl, by norm_num, rfl, by decide⟩

/-- C6 amended: `score` fails with `ModelInvocationError` exactly when the
artifact raises or its output row has fewer than two entries (the column-1
selection raises and the single `except` clause catches it); otherwise it
returns the index-1 entry unchecked — rows with more than two classes are
accepted, and the returned probability is not range-checked. -/
theorem score_characterization (out : ArtifactOutput) (p : ℚ) :
    (score out = .ok p ↔ ∃ ps, out = .ok ps ∧ 2 ≤ ps.length ∧ ps.getD 1 0 = p) ∧
    (score out = .error .modelInvocation ↔ ∀ ps, out = .ok ps → ps.length < 2) := by
  cases out with
  | error e =>
    constructor
    · constructor
      · intro hok
        exact absurd hok (by simp [score])
      · rintro ⟨ps, hps, _⟩
        exact absurd hps (by simp)
    · constructor
      · intro _ ps hps
        exact absurd hps (by simp)
      · intro _
        rfl
  | ok ps =>
    by_cases h2 : 2 ≤ ps.length
    · constructor
      · constructor
        · intro hok
          rw [score_ok_eval h2] at hok
          injection hok with hgd
          exact ⟨ps, rfl, h2, hgd⟩
        · rintro ⟨ps2, hps2, hl, hgd⟩
          injection hps2 with hps2
          subst hps2
          rw [score_ok_eval hl, hgd]
      · constructor
        · intro herr
          rw [score_ok_eval h2] at herr
          exact absurd herr (by simp)
        · intro hall
          exact absurd (hall ps rfl) (by omega)
    · constructor
      · constructor
        · intro hok
          rw [score_bad_shape h2] at hok
          exact absurd hok (by simp)
        · rintro ⟨ps2, hps2, hl, _⟩
          injection hps2 with hps2
          subst hps2
          exact absurd hl h2
      · constructor
        · intro _ ps2 hps2
          injection hps2 with hps2
          subst hps2
          omega
        · intro _
          exact score_bad_shape h2

-- -------------------- Helper lemmas: sanitization and coverage --------------------

lemma count_filter_eq (l : List String) (p : String → Bool) (a : String) :
    (l.filter p).count a = if p a then l.count a else 0 := by
  induction l with
  | nil => simp
  | cons x rest ih =>
    by_cases hx : p x <;> by_cases ha : x = a <;>
      simp_all [List.count_cons, List.filter_cons]

lemma dedupFirst_sublist (l : List String) : List.Sublist (dedupFirst l) l := by
  induction l using dedupFirst.induct with
  | case1 => simp [dedupFirst]
  | case2 x rest ih =>
    rw [dedupFirst]
    exact (ih.trans (List.filter_sublist rest)).cons₂ x

lemma mem_dedupFirst {a : String} : ∀ {l : List String}, a ∈ dedupFirst l ↔ a ∈ l := by
  intro l
  induction l using dedupFirst.induct with
  | case1 => simp [dedupFirst]
  | case2 x rest ih =>
    rw [dedupFirst]
    by_cases hax : a = x
    · simp [hax]
    · simp only [List.mem_cons, hax, false_or]
      rw [ih]
      simp [List.mem_filter, hax]

lemma nodup_dedupFirst (l : List String) : (dedupFirst l).Nodup := by
  induction l using dedupFirst.induct with
  | case1 => simp [dedupFirst]
  | case2 x rest ih =>
    rw [dedupFirst]
    refine List.nodup_cons.mpr ⟨?_, ih⟩
    intro hx
    have := mem_dedupFirst.mp hx
    rw [List.mem_filter] at this
    simp at this

lemma sanitizeAux_eq : ∀ (feats : List String) (seen : List String),
    sanitizeAux seen feats =
      dedupFirst ((feats.map pyStrip).filter (fun a => decide (a ≠ "" ∧ a ∉ seen))) := by
  intro feats
  induction feats with
  | nil => intro seen; simp [sanitizeAux, dedupFirst]
  | cons x rest ih =>
    intro seen
    by_cases hx : pyStrip x ≠ "" ∧ pyStrip x ∉ seen
    · simp only [sanitizeAux, if_pos hx]
      have hfc : ((x :: rest).map pyStrip).filter (fun a => decide (a ≠ "" ∧ a ∉ seen))
          = pyStrip x :: (rest.map pyStrip).filter (fun a => decide (a ≠ "" ∧ a ∉ seen)) := by
        simp [List.filter_cons, hx]
      rw [hfc, dedupFirst]
      congr 1
      rw [ih (pyStrip x :: seen), List.filter_filter]
      congr 1
      apply List.filter_congr
      intro a _
      by_cases h1 : a = "" <;> by_cases h2 : a ∈ seen <;> by_cases h3 : a = pyStrip x <;>
        simp [h1, h2, h3, List.mem_cons]
    · simp only [sanitizeAux, if_neg hx]
      rw [ih seen]
      congr 1
      simp [List.filter_cons, hx]

lemma sanitizeAux_eq_nil_iff : ∀ (feats : List String) (seen : List String),
    sanitizeAux seen feats = [] ↔ ∀ x ∈ feats, pyStrip x = "" ∨ pyStrip x ∈ seen := by
  intro feats
  induction feats with
  | nil => intro seen; simp [sanitizeAux]
  | cons x rest ih =>
    intro seen
    by_cases hx : pyStrip x ≠ "" ∧ pyStrip x ∉ seen
    · simp only [sanitizeAux, if_pos hx]
      constructor
      · intro h; exact absurd h (by simp)
      · intro hall
        rcases hall x (by simp) with h | h
        · exact absurd h hx.1
        · exact absurd h hx.2
    · simp only [sanitizeAux, if_neg hx]
      rw [ih seen]
      constructor
      · intro hall y hy
        rcases List.mem_cons.mp hy with rfl | hy2
        · by_cases h1 : pyStrip y = ""
          · exact Or.inl h1
          · right
            by_contra h2
            exact hx ⟨h1, h2⟩
        · exact hall y hy2
      · intro hall y hy
        exact hall y (by simp [hy])

lemma count_partition (features : List String) (f : String) :
    ∀ L : List (String × List String), L.Pairwise (fun g1 g2 => ∀ a ∈ g1.2, a ∉ g2.2) →
      ((L.map (fun g => features.filter (fun x => x ∈ g.2))).flatten).count f
        + (features.filter (fun x => ∀ g ∈ L, x ∉ g.2)).count f
      = features.count f := by
  intro L
  induction L with
  | nil =>
    intro _
    simp
  | cons g L2 ih =>
    intro hp
    have hd := List.pairwise_cons.mp hp
    rw [List.map_cons, List.flatten_cons, List.count_append]
    by_cases hf : f ∈ g.2
    · have h1 : (features.filter (fun x => x ∈ g.2)).count f = features.count f := by
        rw [count_filter_eq]; simp [hf]
      have h2 : ((L2.map (fun g2 => features.filter (fun x => x ∈ g2.2))).flatten).count f
          = 0 := by
        rw [List.count_eq_zero]
        intro hmem
        rw [List.mem_flatten] at hmem
        obtain ⟨l, hl, hfl⟩ := hmem
        rw [List.mem_map] at hl
        obtain ⟨g2, hg2, rfl⟩ := hl
        rw [List.mem_filter] at hfl
        exact (hd.1 g2 hg2 f hf) (by simpa using hfl.2)
      have h3 : (features.filter (fun x => ∀ g2 ∈ g :: L2, x ∉ g2.2)).count f = 0 := by
        have hno : ¬(∀ g2 ∈ g :: L2, f ∉ g2.2) := fun hall => hall g (by simp) hf
        simp only [count_filter_eq, decide_eq_true_eq]
        rw [if_neg hno]
      rw [h1, h2, h3]
      omega
    · have h1 : (features.filter (fun x => x ∈ g.2)).count f = 0 := by
        rw [count_filter_eq]; simp [hf]
      have h3 : (features.filter (fun x => ∀ g2 ∈ g :: L2, x ∉ g2.2)).count f
          = (features.filter (fun x => ∀ g2 ∈ L2, x ∉ g2.2)).count f := by
        simp only [count_filter_eq, decide_eq_true_eq]
        by_cases hall : ∀ g2 ∈ L2, f ∉ g2.2
        · have hall2 : ∀ g2 ∈ g :: L2, f ∉ g2.2 := by
            intro g2 hg2
            rcases List.mem_cons.mp hg2 with rfl | hh
            · exact hf
            · exact hall g2 hh
          rw [if_pos hall2, if_pos hall]
        · have hno : ¬(∀ g2 ∈ g :: L2, f ∉ g2.2) :=
            fun hc => hall (fun g2 hg2 => hc g2 (by simp [hg2]))
          rw [if_neg hno, if_neg hall]
      rw [h1, h3]
      have := ih hd.2
      omega

-- -------------------- Claim theorems: schema loading and coverage --------------------

/-- C7 counterexample: a source whose only entry trims to the empty string is
sanitized to the empty list — `load_features` returns an empty schema and
raises no `EmptySchemaError` (no such failure path exists in the code). -/
theorem load_features_empty_schema : load_features [" "] = [] := by decide

/-- C7 amended: `load_features` returns the sanitized list, which is empty
exactly when every raw entry trims to the empty string; no error is raised in
that case. -/
theorem load_features_empty_iff (feats : List String) :
    load_features feats = [] ↔ ∀ x ∈ feats, pyStrip x = "" := by
  rw [load_features, sanitizeAux_eq_nil_iff]
  simp

/-- C8: the normalized schema contains the input entries with surrounding
whitespace trimmed, no empty names, no duplicates, and retains names in
first-seen order of the input (it is the keep-first deduplication of the
trimmed, non-empty entries, and a sublist of the trimmed input). -/
theorem load_features_normalized (feats : List String) :
    load_features feats = dedupFirst ((feats.map pyStrip).filter (fun a => a ≠ "")) ∧
    (load_features feats).Nodup ∧
    (∀ a ∈ load_features feats, a ≠ "" ∧ ∃ x ∈ feats, pyStrip x = a) ∧
    List.Sublist (load_features feats) (feats.map pyStrip) := by
  have heq : load_features feats
      = dedupFirst ((feats.map pyStrip).filter (fun a => a ≠ "")) := by
    rw [load_features, sanitizeAux_eq]
    congr 1
    apply List.filter_congr
    intro a _
    simp
  refine ⟨heq, ?_, ?_, ?_⟩
  · rw [heq]
    exact nodup_dedupFirst _
  · intro a ha
    rw [heq] at ha
    have hmem := mem_dedupFirst.mp ha
    rw [List.mem_filter] at hmem
    obtain ⟨hmap, hne⟩ := hmem
    rw [List.mem_map] at hmap
    obtain ⟨x, hx, hpx⟩ := hmap
    exact ⟨by simpa using hne, x, hx, hpx⟩
  · rw [heq]
    exact (dedupFirst_sublist _).trans (List.filter_sublist _)

/-- C10: for every duplicate-free (normalized) schema, the two rendering
passes — grouped features, then remaining features — assign a widget value to
every schema feature exactly once: each schema name occurs exactly once in
the assignment order, and nothing outside the schema is assigned.  Hence
`values_dict[f]` is defined for every schema name `f`. -/
theorem values_dict_covers (features : List String) (hnd : features.Nodup) :
    (∀ f ∈ features, (renderOrder features).count f = 1) ∧
    (∀ f ∈ renderOrder features, f ∈ features) := by
  constructor
  · intro f hf
    have h := count_partition features f GROUPS (by decide)
    have h2 : (renderOrder features).count f = features.count f := by
      simpa [renderOrder, groupedRender, remainingRender, List.count_append] using h
    rw [h2]
    exact List.count_eq_one_of_mem hnd hf
  · intro f hf
    simp only [renderOrder, groupedRender, remainingRender, List.mem_append] at hf
    rcases hf with hf | hf
    · rw [List.mem_flatten] at hf
      obtain ⟨l, hl, hfl⟩ := hf
      rw [List.mem_map] at hl
      obtain ⟨g, _, rfl⟩ := hl
      exact (List.mem_filter.mp hfl).1
    · exact (List.mem_filter.mp hf).1

/-- Witness for C10 at a concrete schema with grouped features and an
ungrouped one. -/
theorem values_dict_covers_witness :
    (["Gender", "BMI", "Foo"] : List String).Nodup ∧
    (renderOrder ["Gender", "BMI", "Foo"]).count "Foo" = 1 :=
  ⟨by decide, (values_dict_covers ["Gender", "BMI", "Foo"] (by decide)).1 "Foo" (by decide)⟩
